import Mathlib

/-!
Shallow embedding, in Lean 4, of the core of the `fvtt-shared-library`
repository: the enumeration factory (`src/enums.js`), the package-identity
resolver (`src/package_info.js`), the manifest-version parser and
`version_at_least` comparison, and the logging verbosity gate.

JavaScript values that the embedded code actually manipulates are modelled
explicitly: strings as `String`, JS numbers that the code treats as integers
as `Int`/`Nat`, `null`/`undefined` via `Option` (or a dedicated constructor
when the code distinguishes falsy cases), and thrown exceptions via
`Except JSErr`.  String primitives (`split`, `toUpperCase`, `parseInt`, ...)
are given executable char-list models so that every definition evaluates.
-/

namespace SharedLib

/-- Models JS `String.prototype.toUpperCase` for the ASCII strings this code
handles (enum member names, type keys). -/
def js_toUpper (s : String) : String :=
  String.mk (s.toList.map Char.toUpper)

/-- Models JS `String.prototype.toLowerCase` for the ASCII strings this code
handles. -/
def js_toLower (s : String) : String :=
  String.mk (s.toList.map Char.toLower)

/-- Splits a character list at every character satisfying `p`; the separators
are dropped.  Always returns at least one (possibly empty) piece, exactly like
JS `String.prototype.split`. -/
def split_chars (p : Char → Bool) : List Char → List (List Char)
  | [] => [[]]
  | c :: cs =>
    if p c then [] :: split_chars p cs
    else
      match split_chars p cs with
      | x :: xs => (c :: x) :: xs
      | [] => [[c]]

/-- Models JS `s.split(sep)` for a single-character separator. -/
def js_split (s : String) (sep : Char) : List String :=
  (split_chars (fun c => c == sep) s.toList).map String.mk

/-- Models the line decomposition performed by a JS multiline (`m`-flag)
regular expression: `^`/`$` anchor around LF and CR line terminators. -/
def js_lines (s : String) : List String :=
  (split_chars (fun c => c == '\n' || c == '\r') s.toList).map String.mk

/-- Numeric value of a decimal digit list. -/
def digits_to_nat (ds : List Char) : Nat :=
  ds.foldl (fun a c => a * 10 + (c.toNat - '0'.toNat)) 0

/-- Models JS `parseInt(s)` (combined with the `Number.isInteger` guard used at
its call site): optional leading whitespace, optional sign, then leading
decimal digits; `none` models `NaN`.  The hexadecimal `0x` form of `parseInt`
does not arise in this code base. -/
def js_parseInt (s : String) : Option Int :=
  let cs := s.toList.dropWhile (fun c => c == ' ' || c == '\t' || c == '\n' || c == '\r')
  let signed : Bool × List Char :=
    match cs with
    | '-' :: rest => (true, rest)
    | '+' :: rest => (false, rest)
    | _ => (false, cs)
  let ds := signed.2.takeWhile Char.isDigit
  if ds.isEmpty then none
  else some (if signed.1 then -(digits_to_nat ds : Int) else (digits_to_nat ds : Int))

/-- JS `Number.MAX_SAFE_INTEGER`. -/
def MAX_SAFE_INTEGER : Int := 9007199254740991

/-!
## Enumeration factory (`src/enums.js`)

A member created by `EnumValue` is, in the source, an instance of a throwaway
class whose only payload is its `name` (the class name) and an optional
`value` field; it is frozen immediately.  We model a member as a record of
those two fields.  The per-enum `value_cls` instance test (`instanceof`) is
modelled by membership in the enum's member list, which coincides with it for
factory-created members (every instance the factory creates is pushed onto
`list`).
-/

structure EnumVal where
  name : String
  value : Option Int
deriving DecidableEq, Repr

/-- Derived property `lower` of an enum member (`this.name.toLowerCase()`). -/
def EnumVal.lower (m : EnumVal) : String :=
  js_toLower m.name

/-- A JS value as passed to / returned from `Enum.get`. -/
inductive JSVal where
  | undef
  | member (m : EnumVal)
  | str (s : String)
  | int (n : Int)
deriving DecidableEq, Repr

/-- The exceptions thrown by the embedded code.  `typeError` models the
implicit JS `TypeError` raised when a property of `undefined` is accessed
(e.g. `this.reverse.get(...)` on an enum built without values). -/
inductive JSErr where
  | frozenEnum (enumName : String)
  | keysUppercase
  | duplicateName (name enumName : String)
  | duplicateValue (value : Int) (enumName : String)
  | notFound (enumName : String) (value : JSVal)
  | typeError
  | validationId (id : String)
  | validationType (id : String)
  | invalidKey (key : String)
  | invalidScriptType (t : String)
  | captureError
  | versionParse (version : String)
deriving DecidableEq, Repr

instance {ε α : Type} [DecidableEq ε] [DecidableEq α] : DecidableEq (Except ε α) :=
  fun x y =>
    match x, y with
    | .ok a, .ok b =>
      if h : a = b then .isTrue (congrArg Except.ok h)
      else .isFalse (fun hh => h (Except.ok.inj hh))
    | .error a, .error b =>
      if h : a = b then .isTrue (congrArg Except.error h)
      else .isFalse (fun hh => h (Except.error.inj hh))
    | .ok _, .error _ => .isFalse (fun hh => Except.noConfusion hh)
    | .error _, .ok _ => .isFalse (fun hh => Except.noConfusion hh)

/-- The state of an enumeration class.  `name` is the factory's `name`
argument (the JS class name appends `"Enum"` to it; the lookup-failure message
uses the bare name, which is what the claims observe).  The member-name →
member property table of the source is represented implicitly: it always holds
exactly the members of `list` under their (unique, uppercase) names, so name
lookup is `find?` over `list`.  `reverse` is `some` exactly when the enum was
built from a name→value mapping. -/
structure EnumCls where
  name : String
  list : List EnumVal
  reverse : Option (List (Int × EnumVal))
  frozen : Bool
deriving DecidableEq, Repr

/-- Property lookup `enum_cls[n]` restricted to member names (all static
helpers of the class have lowercase names, members uppercase ones, so an
uppercase key can only hit a member). -/
def EnumCls.lookup_name (E : EnumCls) (n : String) : Option EnumVal :=
  E.list.find? (fun m => m.name == n)

/-- JS `Map.prototype.get` on the reverse (value → member) map. -/
def reverse_get (r : List (Int × EnumVal)) (v : Int) : Option EnumVal :=
  (r.find? (fun p => p.1 == v)).map (fun p => p.2)

/-- JS `Map.prototype.has` on the reverse map. -/
def reverse_has (r : List (Int × EnumVal)) (v : Int) : Bool :=
  (r.find? (fun p => p.1 == v)).isSome

/-- The sort key of the comparator in `sort_list_by_value`:
`(x.value ?? 0)`. -/
def sort_key (m : EnumVal) : Int :=
  m.value.getD 0

/-- The relation the member list is kept sorted by. -/
def value_le (a b : EnumVal) : Prop :=
  sort_key a ≤ sort_key b

instance : DecidableRel value_le :=
  fun a b => inferInstanceAs (Decidable (sort_key a ≤ sort_key b))

instance : IsTotal EnumVal value_le :=
  ⟨fun a b => Int.le_total (sort_key a) (sort_key b)⟩

instance : IsTrans EnumVal value_le :=
  ⟨fun _ _ _ => Int.le_trans⟩

/-- `sort_list_by_value`: JS `Array.prototype.sort` with comparator
`(a.value ?? 0) - (b.value ?? 0)`.  JS sort is stable and this comparator is
consistent, so it is modelled by the stable `List.insertionSort`. -/
def sort_list_by_value (l : List EnumVal) : List EnumVal :=
  List.insertionSort value_le l

/-- The `EnumValue` factory (`src/enums.js` lines 11-56): validates, creates
the member, registers it in the property table / reverse map / member list,
and re-sorts the list unless `sort` is `false`.  Returns the member together
with the updated enumeration state. -/
def EnumValue (E : EnumCls) (name : String) (value : Option Int) (sort : Bool) :
    Except JSErr (EnumVal × EnumCls) :=
  if E.frozen then .error (.frozenEnum E.name)
  else if name ≠ js_toUpper name then .error .keysUppercase
  else
    let value_obj : EnumVal := ⟨name, value⟩
    if (E.lookup_name name).isSome then .error (.duplicateName name E.name)
    else
      let withrev : Except JSErr EnumCls :=
        match value with
        | none => .ok E
        | some v =>
          match E.reverse with
          | none => .error .typeError
          | some r =>
            if reverse_has r v then .error (.duplicateValue v E.name)
            else .ok { E with reverse := some (r ++ [(v, value_obj)]) }
      match withrev with
      | .error e => .error e
      | .ok E1 =>
        let list1 := E1.list ++ [value_obj]
        .ok (value_obj, { E1 with list := if sort then sort_list_by_value list1 else list1 })

/-- The factory's `collection` argument: an array of names, or a
name → value dictionary (iterated in insertion order, as JS does for string
keys). -/
inductive EnumCollection where
  | arr (names : List String)
  | dict (pairs : List (String × Int))

/-- The name/value entries of a collection, in iteration order. -/
def EnumCollection.entries : EnumCollection → List (String × Option Int)
  | .arr names => names.map (fun n => (n, none))
  | .dict pairs => pairs.map (fun p => (p.1, some p.2))

/-- Inserts all collection entries with `sort = false`. -/
def enum_add_all (entries : List (String × Option Int)) (E : EnumCls) :
    Except JSErr EnumCls :=
  match entries with
  | [] => .ok E
  | e :: rest =>
    match EnumValue E e.1 e.2 false with
    | .error err => .error err
    | .ok pr => enum_add_all rest pr.2

/-- The `Enum` factory (`src/enums.js` lines 61-201): builds the enumeration
state, inserts every collection entry without sorting, sorts once at the end,
and freezes the result unless `freeze` is `false`. -/
def Enum (name : String) (collection : EnumCollection) (freeze : Bool) :
    Except JSErr EnumCls :=
  let init : EnumCls :=
    { name := name
      list := []
      reverse := match collection with | .arr _ => none | .dict _ => some []
      frozen := false }
  match enum_add_all collection.entries init with
  | .error e => .error e
  | .ok E =>
    let E := { E with list := sort_list_by_value E.list }
    .ok (if freeze then { E with frozen := true } else E)

/-- `Enum.get` (`src/enums.js` lines 82-116).  `dflt = JSVal.undef` models an
omitted default (JS cannot distinguish the two: the parameter default is
`undefined` and the miss check is `dflt === undefined`).  Note that when the
enum has no reverse map (array-built), a miss reaches `this.reverse.get(...)`
on `undefined` and raises a `TypeError` before the default is consulted. -/
def EnumCls.get (E : EnumCls) (value : JSVal) (dflt : JSVal) : Except JSErr JSVal :=
  let pass : Option EnumVal :=
    match value with
    | .member m => if E.list.contains m then some m else none
    | _ => none
  match pass with
  | some m => .ok (.member m)
  | none =>
    let by_name : Option EnumVal :=
      match value with
      | .str s => E.lookup_name (js_toUpper s)
      | _ => none
    match by_name with
    | some res => .ok (.member res)
    | none =>
      match E.reverse with
      | none => .error .typeError
      | some r =>
        let rev0 : Option EnumVal :=
          match value with
          | .int n => reverse_get r n
          | _ => none
        let rev : Option EnumVal :=
          match rev0, value with
          | none, .str s =>
            match js_parseInt s with
            | some n => reverse_get r n
            | none => none
          | res, _ => res
        match rev with
        | some m => .ok (.member m)
        | none =>
          if dflt = .undef then .error (.notFound E.name value)
          else .ok dflt

/-- `Enum.has`: `value instanceof value_cls`. -/
def EnumCls.has (E : EnumCls) (value : JSVal) : Bool :=
  match value with
  | .member m => E.list.contains m
  | _ => false

/-!
## Concrete enumerations of the repository
-/

/-- `PACKAGE_TYPES` (`src/package_info.js` lines 15-20): an array-built
(value-less) enumeration.  The source discards the error case (construction
succeeds, as proved below by evaluation); the fallback arm is never taken. -/
def PACKAGE_TYPES : EnumCls :=
  match Enum "PackageType" (.arr ["UNKNOWN", "MODULE", "SYSTEM", "WORLD"]) true with
  | .ok E => E
  | .error _ => { name := "PackageType", list := [], reverse := none, frozen := true }

def PT_UNKNOWN : EnumVal := ⟨"UNKNOWN", none⟩

def PT_MODULE : EnumVal := ⟨"MODULE", none⟩

def PT_SYSTEM : EnumVal := ⟨"SYSTEM", none⟩

def PT_WORLD : EnumVal := ⟨"WORLD", none⟩

/-- `VERBOSITY` (logging module, lines 14-23).  The source really passes
`'PackageType'` as the enumeration name here (a copy-paste slip kept
faithfully). -/
def VERBOSITY : EnumCls :=
  match Enum "PackageType"
      (.dict [("ZERO", 0), ("TRACE", 100), ("DEBUG", 200), ("INFO", 300),
              ("WARNING", 400), ("ERROR", 500),
              ("CRITICAL", MAX_SAFE_INTEGER - 1), ("ALWAYS", MAX_SAFE_INTEGER)]) true with
  | .ok E => E
  | .error _ => { name := "PackageType", list := [], reverse := none, frozen := true }

def V_WARNING : EnumVal := ⟨"WARNING", some 400⟩

def V_ERROR : EnumVal := ⟨"ERROR", some 500⟩

def V_INFO : EnumVal := ⟨"INFO", some 300⟩

/-!
## Package identity resolver (`src/package_info.js`)
-/

/-- `KEY_SEPARATOR` (line 25). -/
def KEY_SEPARATOR : Char := ':'

/-- `UNKNOWN_ID` (line 26): `'«unknown»'`. -/
def UNKNOWN_ID : String := "«unknown»"

/-- The library's own package id, from `consts.js`.  Modelled from the spec:
`consts.js` is not under `src/`; the spec describes the ignore-list default as
"the library's own identifier", which for this libWrapper-derived shared
library is the string below.  No claim's outcome depends on its exact value. -/
def PACKAGE_ID : String := "lib-wrapper"

/-- `PACKAGE_ID_REGEX.test(id)` for `^[a-z0-9_-]+$` with the `i` flag,
together with the preceding falsy/type guard of `is_valid_id`
(lines 181-189). -/
def is_valid_id (id : String) : Bool :=
  !id.toList.isEmpty && id.toList.all (fun c => c.isAlphanum || c == '_' || c == '-')

/-- The slice of the host platform's live object graph that the resolver
reads: `game.modules` (presence, membership, active flags),
`game.data.system.id`, `game.data.world.id`, and the stack trace an
`Error()` would capture (`none` models "not a string"). -/
structure HostState where
  has_modules : Bool
  module_ids : List String
  active_module_ids : List String
  system_id : Option String
  world_id : Option String
  captured_stack : Option String

/-- The `ignore_ids` argument: a single package-id string or an array of
them. -/
inductive IgnoreIds where
  | str (s : String)
  | arr (ids : List String)

/-- Whether `pre` is a prefix of `l`. -/
def chars_start_with : List Char → List Char → Bool
  | [], _ => true
  | _ :: _, [] => false
  | a :: as, b :: bs => a == b && chars_start_with as bs

/-- Whether `needle` occurs contiguously inside `hay` (JS
`String.prototype.includes`). -/
def chars_contain (needle : List Char) : List Char → Bool
  | [] => chars_start_with needle []
  | b :: bs => chars_start_with needle (b :: bs) || chars_contain needle bs

/-- The module-id ignore test
`ignore_ids && (name === ignore_ids || ignore_ids?.includes?.(name))`
(line 104).  For a string argument JS `includes` is a *substring* test; an
empty string is falsy and ignores nothing. -/
def ignores (ign : Option IgnoreIds) (name : String) : Bool :=
  match ign with
  | none => false
  | some (.str s) =>
    if s.toList.isEmpty then false
    else name == s || chars_contain name.toList s.toList
  | some (.arr ids) => ids.contains name

/-- Default value of `IGNORE_PACKAGE_IDS` (line 32). -/
def IGNORE_PACKAGE_IDS : IgnoreIds := .str PACKAGE_ID

/-- Case-insensitive match of the lowercase pattern `pat` at the head of
`cs`; returns the matched characters in their original case and the
remainder.  Models one alternative of the `i`-flagged `STACK_TRACE_REGEX`. -/
def match_ci (pat : List Char) (cs : List Char) : Option (List Char × List Char) :=
  match pat, cs with
  | [], rest => some ([], rest)
  | _ :: _, [] => none
  | p :: ps, c :: rest =>
    if c.toLower == p then (match_ci ps rest).map (fun pr => (c :: pr.1, pr.2)) else none

/-- Tries `\/(worlds|systems|modules)\/` at the head of `cs` (case
insensitively); on success returns the captured type segment (original case)
and the remainder after the trailing slash. -/
def marker_at (cs : List Char) : Option (String × List Char) :=
  match match_ci "/worlds/".toList cs with
  | some pr => some (String.mk (pr.1.drop 1).dropLast, pr.2)
  | none =>
    match match_ci "/systems/".toList cs with
    | some pr => some (String.mk (pr.1.drop 1).dropLast, pr.2)
    | none =>
      match match_ci "/modules/".toList cs with
      | some pr => some (String.mk (pr.1.drop 1).dropLast, pr.2)
      | none => none

/-- The lazy name capture `(.+?)(?=\/)`: the shortest non-empty prefix of
`cs` that is immediately followed by a `/`. -/
def name_upto (cs : List Char) : Option String :=
  match cs with
  | [] => none
  | c :: rest =>
    match rest.findIdx? (fun x => x == '/') with
    | some i => some (String.mk (c :: rest.take i))
    | none => none

/-- One line of `STACK_TRACE_REGEX` matching: the earliest marker occurrence
that is followed by a valid name capture wins (the regex engine's `^.*?`
backtracks past marker occurrences whose name capture fails). -/
def line_match : List Char → Option (String × String)
  | [] => none
  | c :: cs =>
    match marker_at (c :: cs) with
    | some pr =>
      match name_upto pr.2 with
      | some n => some (pr.1, n)
      | none => line_match cs
    | none => line_match cs

/-- All matches `stack_trace.matchAll(STACK_TRACE_REGEX)` yields: per line at
most one `(type, name, match[0])` triple, where `match[0]` is the whole line
(the match is anchored `^.*? ... .*?$`). -/
def stack_matches (trace : String) : List (String × String × String) :=
  (js_lines trace).filterMap
    (fun l => (line_match l.toList).map (fun tn => (tn.1, tn.2, l)))

/-- The per-match classification and filtering of
`foreach_package_in_stack_trace` (lines 74-112): world/system matches are
dropped when a live id is known and differs, module matches are dropped when
a live registry does not know them or the ignore list covers them.  Returns
`none` for a skipped match (`continue`). -/
def filter_match (h : HostState) (ign : Option IgnoreIds) (t name : String) :
    Except JSErr (Option EnumVal) :=
  if t == "worlds" then
    match h.world_id with
    | some w => if !w.toList.isEmpty && name ≠ w then .ok none else .ok (some PT_WORLD)
    | none => .ok (some PT_WORLD)
  else if t == "systems" then
    match h.system_id with
    | some sy => if !sy.toList.isEmpty && name ≠ sy then .ok none else .ok (some PT_SYSTEM)
    | none => .ok (some PT_SYSTEM)
  else if t == "modules" then
    if h.has_modules && !h.module_ids.contains name then .ok none
    else if ignores ign name then .ok none
    else .ok (some PT_MODULE)
  else .error (.invalidScriptType t)

/-- The match loop of `foreach_package_in_stack_trace`: `matchFn` threads a
state and returns `false` in its second component to abort (`return false`).
A `matchFn` may itself throw (the `detect_id` callback does). -/
def foreach_aux {σ : Type} (matchFn : σ → String → EnumVal → String → Except JSErr (σ × Bool))
    (h : HostState) (ign : Option IgnoreIds) (s : σ) :
    List (String × String × String) → Except JSErr (σ × Bool)
  | [] => .ok (s, true)
  | m :: rest =>
    if m.1.toList.isEmpty || m.2.1.toList.isEmpty then foreach_aux matchFn h ign s rest
    else
      match filter_match h ign m.1 m.2.1 with
      | .error e => .error e
      | .ok none => foreach_aux matchFn h ign s rest
      | .ok (some ty) =>
        match matchFn s m.2.1 ty m.2.2 with
        | .error e => .error e
        | .ok (s1, cont) =>
          if cont then foreach_aux matchFn h ign s1 rest else .ok (s1, false)

/-- `foreach_package_in_stack_trace` (lines 41-122, current revision):
captures the stack when none is supplied (a non-string capture simply exits),
exits on an empty trace, and otherwise iterates the regex matches.  Supplying
a non-string value is excluded by typing (the JS code would throw a
parameter-validation error); supplying a string — even the empty one — never
raises a capture error in this revision. -/
def foreach_package_in_stack_trace {σ : Type}
    (matchFn : σ → String → EnumVal → String → Except JSErr (σ × Bool))
    (s : σ) (h : HostState) (stack_trace : Option String) (ign : Option IgnoreIds) :
    Except JSErr (σ × Bool) :=
  match stack_trace, h.captured_stack with
  | none, none => .ok (s, true)
  | none, some cap =>
    if cap.toList.isEmpty then .ok (s, true)
    else foreach_aux matchFn h ign s (stack_matches cap)
  | some tr, _ =>
    if tr.toList.isEmpty then .ok (s, true)
    else foreach_aux matchFn h ign s (stack_matches tr)

/-- A `PackageInfo` instance after a successful `set`: an identifier and a
`PACKAGE_TYPES` member.  (The source also freezes the instance; immutability
is implicit here.) -/
structure PackageInfo where
  id : String
  type : EnumVal
deriving DecidableEq, Repr

/-- `PackageInfo.prototype.equals` (line 262).  Both operands being
`PackageInfo` values models the `obj.constructor === this.constructor`
check. -/
def PackageInfo.equals (a b : PackageInfo) : Bool :=
  b.id == a.id && b.type == a.type

/-- The value `set_unknown` produces (lines 257-260). -/
def UNKNOWN_PINFO : PackageInfo := ⟨UNKNOWN_ID, PT_UNKNOWN⟩

/-- `PackageInfo.prototype.key` (line 372). -/
def PackageInfo.key (p : PackageInfo) : String :=
  p.type.lower ++ String.mk [KEY_SEPARATOR] ++ p.id

/-- `PackageInfo.parse_key` (lines 191-200): split on `':'`, two pieces
required, the type piece resolved through `PACKAGE_TYPES.get` with no default
(whose exceptions — a `TypeError` for this value-less enum — propagate). -/
def parse_key (key : String) : Except JSErr (Option String × Option EnumVal) :=
  match js_split key KEY_SEPARATOR with
  | [t, i] =>
    match PACKAGE_TYPES.get (.str t) .undef with
    | .error e => .error e
    | .ok (.member m) => .ok (some i, some m)
    | .ok _ => .ok (some i, none)
  | _ => .ok (none, none)

/-- `PackageInfo.prototype.detect_type` (lines 275-294). -/
def detect_type (h : HostState) (id : String) : EnumVal :=
  if !h.has_modules then
    if id == PACKAGE_ID then PT_MODULE else PT_UNKNOWN
  else if h.active_module_ids.contains id then PT_MODULE
  else if h.system_id == some id then PT_SYSTEM
  else if h.world_id == some id then PT_WORLD
  else PT_UNKNOWN

/-- The tail of `PackageInfo.prototype.set` (lines 236-254) reached once `id`
is known to be a plain identifier: validate the id, validate a non-null type
against `PACKAGE_TYPES`, store, and auto-detect the type when it is null. -/
def set_core (h : HostState) (id : String) (type : Option EnumVal) :
    Except JSErr PackageInfo :=
  if !is_valid_id id then .error (.validationId id)
  else
    match type with
    | some t =>
      if !PACKAGE_TYPES.has (.member t) then .error (.validationType id)
      else .ok ⟨id, t⟩
    | none => .ok ⟨id, detect_type h id⟩

/-- `this.set(id, type)` as invoked with a non-null type on a non-empty id
(the recursive call inside `from_key`, and the `detect_id` callback): only
the unknown-sentinel branch precedes `set_core`. -/
def set_with_type (h : HostState) (id : String) (t : EnumVal) :
    Except JSErr PackageInfo :=
  if id == UNKNOWN_ID then .ok UNKNOWN_PINFO
  else set_core h id (some t)

/-- `PackageInfo.prototype.detect_id` (lines 266-273): start from the unknown
sentinel, then let the stack scan overwrite it with the first surviving match
(the callback returns `false` to stop).  The callback's `this.set(id, type)`
may throw, which propagates. -/
def detect_id (h : HostState) (stack_trace : Option String) :
    Except JSErr PackageInfo :=
  match foreach_package_in_stack_trace
      (fun _ id ty _ =>
        match set_with_type h id ty with
        | .error e => .error e
        | .ok p => .ok (p, false))
      UNKNOWN_PINFO h stack_trace (some IGNORE_PACKAGE_IDS) with
  | .error e => .error e
  | .ok pr => .ok pr.1

/-- `PackageInfo.prototype.set` (lines 215-255; `id = none` and the empty
string are the falsy ids that trigger auto-detection, the captured stack
living in `h`).  The `from_key(id, fail := false)` attempt (lines 298-309) is
inlined: on a successful parse it performs the recursive `this.set(id, type)`
with the parsed parts, otherwise execution falls through to the plain-id
path. -/
def PackageInfo.set (h : HostState) (id : Option String) (type : Option EnumVal) :
    Except JSErr PackageInfo :=
  match id with
  | none => detect_id h none
  | some i =>
    if i.toList.isEmpty then detect_id h none
    else if i == UNKNOWN_ID then .ok UNKNOWN_PINFO
    else
      match type with
      | some t => set_core h i (some t)
      | none =>
        match parse_key i with
        | .error e => .error e
        | .ok (some pi, some pt) =>
          if pi.toList.isEmpty then set_core h i none
          else set_with_type h pi pt
        | .ok _ => set_core h i none

/-- The accumulating callback of `PackageInfo.collect_all` (lines 140-151):
build the key, skip keys already collected, consult `include_fn`, and record
the key.  The JS `Set` (insertion-ordered, deduplicating) is an
append-if-absent list. -/
def collect_step (include_fn : Option (String → EnumVal → String → Bool))
    (keys : List String) (id : String) (ty : EnumVal) (raw : String) :
    Except JSErr (List String × Bool) :=
  let key := ty.lower ++ String.mk [KEY_SEPARATOR] ++ id
  if keys.contains key then .ok (keys, true)
  else
    match include_fn with
    | some f => if !f id ty raw then .ok (keys, true) else .ok (keys ++ [key], true)
    | none => .ok (keys ++ [key], true)

/-- `PackageInfo.collect_all` (lines 136-161): gather the deduplicated keys
from the stack trace, then construct one `PackageInfo` per key (each
construction can itself throw). -/
def collect_all (h : HostState) (stack_trace : Option String)
    (include_fn : Option (String → EnumVal → String → Bool))
    (ignore_ids : Option IgnoreIds) : Except JSErr (List PackageInfo) :=
  match foreach_package_in_stack_trace (collect_step include_fn) [] h stack_trace ignore_ids with
  | .error e => .error e
  | .ok pr => pr.1.mapM (fun k => PackageInfo.set h (some k) none)

/-!
## Core-compatibility check (`src/package_info.js` lines 443-477)

`isNewerVersion` is a host-platform primitive (Foundry core); it enters the
model as an explicit function parameter.
-/

/-- `PackageInfo.prototype.compatible_with_core`: `versions` is the
`core_version_range` triple `(minimum, verified, maximum)` (or `null` when no
package data exists), `fvtt_version` the host version (or `null`).  JS string
falsiness (`null` or `""`) gates every branch. -/
def compatible_with_core (inv : String → String → Bool)
    (versions : Option (Option String × Option String × Option String))
    (fvtt_version : Option String) : Bool :=
  match versions, fvtt_version with
  | some (min, verif, max), some fv =>
    let fmaj := (js_split fv '.').headD ""
    if fv.toList.isEmpty || fmaj.toList.isEmpty then true
    else
      let host_for := fun (bound : String) =>
        if chars_contain ['.'] bound.toList then fv else fmaj
      let min_fails :=
        match min with
        | some b =>
          !b.toList.isEmpty && (b ≠ host_for b && !inv (host_for b) b)
        | none => false
      let verif_fails :=
        match verif with
        | some b => !b.toList.isEmpty && inv (host_for b) b
        | none => false
      let max_fails :=
        match max with
        | some b => !b.toList.isEmpty && (host_for b == b || inv (host_for b) b)
        | none => false
      if min_fails then false
      else if verif_fails then false
      else if max_fails then false
      else true
  | _, _ => true

/-!
## Manifest-version parsing (`src/unnamed/part_001`, current revision)
-/

/-- The parsed version record `_parse_manifest_version` builds. -/
structure VersionInfo where
  known : Bool
  full : String
  major : Nat
  minor : Nat
  patch : Nat
  suffix : Nat
  meta : String
  git : String
  git_short : String
  full_git : String
deriving DecidableEq, Repr

/-- Maximal leading run of decimal digits and the remainder. -/
def take_digits (cs : List Char) : List Char × List Char :=
  (cs.takeWhile Char.isDigit, cs.dropWhile Char.isDigit)

/-- Groups 3-5 of `^([0-9]+)\.([0-9]+)\.([0-9]+).([0-9]+)(.*)$`: the third
separator is an *unescaped* dot (any character), so after the greedy third
digit group the engine backtracks, giving digits back one at a time until one
character (any) followed by a non-empty digit group fits; the final `(.*)$`
takes the remainder.  `ds` is the maximal digit run, `rest` what follows it;
`k` counts the candidate length of group 3, from longest (greedy) down. -/
def group34 (ds rest : List Char) : Nat → Option (Nat × Nat × String)
  | 0 => none
  | k + 1 =>
    match ds.drop (k + 1) ++ rest with
    | _ :: tail =>
      let d4 := (take_digits tail).1
      if d4.isEmpty then group34 ds rest k
      else some (digits_to_nat (ds.take (k + 1)), digits_to_nat d4,
                 String.mk ((take_digits tail).2))
    | [] => group34 ds rest k

/-- Full match of `/^([0-9]+)\.([0-9]+)\.([0-9]+).([0-9]+)(.*)$/i` returning
`(major, minor, patch, suffix, meta)`. -/
def parse_version_regex (s : String) : Option (Nat × Nat × Nat × Nat × String) :=
  match take_digits s.toList with
  | (d1, '.' :: r2) =>
    if d1.isEmpty then none
    else
      match take_digits r2 with
      | (d2, '.' :: r4) =>
        if d2.isEmpty then none
        else
          match take_digits r4 with
          | (d3, r5) =>
            if d3.isEmpty then none
            else
              (group34 d3 r5 d3.length).map
                (fun g => (digits_to_nat d1, digits_to_nat d2, g.1, g.2.1, g.2.2))
      | _ => none
  | _ => none

/-- `_parse_manifest_version` (part_001 lines 290-318): a missing version
string falls back to `'1.99.99.99'` with `known = false`; an unparsable
string throws; the revision hash defaults to `'unknown'` and is shortened to
its first 7 characters when it is at least 40 characters long. -/
def _parse_manifest_version (version : Option String) (git_hash : Option String) :
    Except JSErr VersionInfo :=
  let known := version.isSome
  let v := version.getD "1.99.99.99"
  match parse_version_regex v with
  | none => .error (.versionParse v)
  | some (major, minor, patch, suffix, meta) =>
    let git := git_hash.getD "unknown"
    let git_short := if git.length ≥ 40 then String.mk (git.toList.take 7) else git
    .ok { known := known, full := v, major := major, minor := minor, patch := patch,
          suffix := suffix, meta := meta, git := git, git_short := git_short,
          full_git := v ++ " (" ++ git_short ++ ")" }

/-- `version_at_least` (part_001 lines 366-379), over an explicit parsed
version state `V` (the source reads the module-level `VERSION`). -/
def version_at_least (V : VersionInfo) (major minor patch suffix : Nat) : Bool :=
  if V.major == major then
    if V.minor == minor then
      if V.patch == patch then V.suffix == suffix
      else V.patch ≥ patch
    else decide (V.minor > minor)
  else decide (V.major > major)

/-!
## Logging verbosity gate (`src/unnamed/part_001`, current revision)
-/

/-- The values `CURRENT_VERBOSITY` can hold and `Log.enabled` can receive:
`null`/`undefined`, a `VERBOSITY` member, or a raw integer. -/
inductive VerbosityArg where
  | null
  | member (m : EnumVal)
  | int (n : Int)
deriving DecidableEq, Repr

/-- `verbosity_to_value` (lines 77-84): `null`/`undefined` map to 0,
otherwise `verbosity.value ?? verbosity`.  Every `VERBOSITY` member carries a
numeric value, so for the members this code passes the `?? verbosity`
fallback is the member's value. -/
def verbosity_to_value : VerbosityArg → Int
  | .null => 0
  | .member m => m.value.getD 0
  | .int n => n

/-- The `Log.verbosity` getter (lines 165-168):
`CURRENT_VERBOSITY ?? VERBOSITY.WARNING`, over an explicit current-verbosity
state (the source reads the module-level variable). -/
def Log_verbosity (current : VerbosityArg) : VerbosityArg :=
  match current with
  | .null => .member V_WARNING
  | v => v

/-- The `Log.verbosity_value` getter (lines 187-189). -/
def Log_verbosity_value (current : VerbosityArg) : Int :=
  verbosity_to_value (Log_verbosity current)

/-- `Log.enabled` (lines 219-224). -/
def Log_enabled (current verbosity : VerbosityArg) : Bool :=
  verbosity_to_value verbosity ≥ Log_verbosity_value current

/-!
## Supporting lemmas
-/

theorem sorted_sort_list (l : List EnumVal) :
    List.Sorted value_le (sort_list_by_value l) :=
  List.sorted_insertionSort value_le l

theorem sort_id_of_novalue (l : List EnumVal) (h : ∀ m ∈ l, m.value = none) :
    sort_list_by_value l = l := by
  apply List.Sorted.insertionSort_eq
  induction l with
  | nil => exact List.sorted_nil
  | cons x xs ih =>
    refine List.Pairwise.cons ?_ (ih (fun m hm => h m (List.mem_cons_of_mem x hm)))
    intro b hb
    show sort_key x ≤ sort_key b
    rw [sort_key, sort_key, h x (List.mem_cons_self x xs), h b (List.mem_cons_of_mem x hb)]

theorem enum_add_all_arr (names : List String) :
    ∀ E0 E1 : EnumCls, enum_add_all (names.map (fun n => (n, none))) E0 = .ok E1 →
      E1.list = E0.list ++ names.map (fun n => (⟨n, none⟩ : EnumVal)) := by
  induction names with
  | nil =>
    intro E0 E1 h
    simp only [List.map_nil, enum_add_all] at h
    cases h
    simp
  | cons n rest ih =>
    intro E0 E1 h
    simp only [List.map_cons, enum_add_all, EnumValue] at h
    split at h
    · cases h
    case _ pr heq =>
      split at heq
      · cases heq
      split at heq
      · cases heq
      split at heq
      · cases heq
      cases heq
      have h2 := ih _ _ h
      simp only [h2]
      simp

theorem get_no_capture (E : EnumCls) (v d : JSVal) (e : JSErr)
    (h : E.get v d = .error e) : e ≠ .captureError := by
  simp only [EnumCls.get] at h
  split at h
  · cases h
  split at h
  · cases h
  split at h
  · cases h; simp
  split at h
  · cases h
  split at h
  · cases h; simp
  · cases h

theorem parse_key_no_capture (key : String) (e : JSErr)
    (h : parse_key key = .error e) : e ≠ .captureError := by
  simp only [parse_key] at h
  split at h
  case _ t i =>
    split at h
    case _ err heq => cases h; exact get_no_capture _ _ _ _ heq
    · cases h
    · cases h
  · cases h

theorem set_core_no_capture (hs : HostState) (id : String) (ty : Option EnumVal) (e : JSErr)
    (h : set_core hs id ty = .error e) : e ≠ .captureError := by
  simp only [set_core] at h
  split at h
  · cases h; simp
  split at h
  case _ t =>
    split at h
    · cases h; simp
    · cases h
  · cases h

theorem set_with_type_no_capture (hs : HostState) (id : String) (t : EnumVal) (e : JSErr)
    (h : set_with_type hs id t = .error e) : e ≠ .captureError := by
  simp only [set_with_type] at h
  split at h
  · cases h
  · exact set_core_no_capture _ _ _ _ h

theorem filter_match_no_capture (hs : HostState) (ign : Option IgnoreIds) (t n : String)
    (e : JSErr) (h : filter_match hs ign t n = .error e) : e ≠ .captureError := by
  simp only [filter_match] at h
  split at h
  · split at h
    · split at h
      · cases h
      · cases h
    · cases h
  split at h
  · split at h
    · split at h
      · cases h
      · cases h
    · cases h
  split at h
  · split at h
    · cases h
    split at h
    · cases h
    · cases h
  · cases h; simp

theorem foreach_aux_no_capture {σ : Type}
    (matchFn : σ → String → EnumVal → String → Except JSErr (σ × Bool))
    (hmf : ∀ s id ty raw e, matchFn s id ty raw = .error e → e ≠ .captureError)
    (hs : HostState) (ign : Option IgnoreIds) :
    ∀ (l : List (String × String × String)) (s : σ) (e : JSErr),
      foreach_aux matchFn hs ign s l = .error e → e ≠ .captureError := by
  intro l
  induction l with
  | nil => intro s e h; cases h
  | cons m rest ih =>
    intro s e h
    simp only [foreach_aux] at h
    split at h
    · exact ih _ _ h
    split at h
    case _ err heq => cases h; exact filter_match_no_capture _ _ _ _ _ heq
    · exact ih _ _ h
    case _ ty heq =>
      split at h
      case _ err heq2 => cases h; exact hmf _ _ _ _ _ heq2
      case _ s1 cont heq2 =>
        split at h
        · exact ih _ _ h
        · cases h

theorem foreach_no_capture {σ : Type}
    (matchFn : σ → String → EnumVal → String → Except JSErr (σ × Bool))
    (hmf : ∀ s id ty raw e, matchFn s id ty raw = .error e → e ≠ .captureError)
    (s : σ) (hs : HostState) (st : Option String) (ign : Option IgnoreIds) (e : JSErr)
    (h : foreach_package_in_stack_trace matchFn s hs st ign = .error e) :
    e ≠ .captureError := by
  simp only [foreach_package_in_stack_trace] at h
  split at h
  · cases h
  · split at h
    · cases h
    · exact foreach_aux_no_capture matchFn hmf hs ign _ _ _ h
  · split at h
    · cases h
    · exact foreach_aux_no_capture matchFn hmf hs ign _ _ _ h

theorem detect_id_no_capture (hs : HostState) (st : Option String) (e : JSErr)
    (h : detect_id hs st = .error e) : e ≠ .captureError := by
  simp only [detect_id] at h
  split at h
  case _ err heq =>
    cases h
    refine foreach_no_capture _ ?_ _ _ _ _ _ heq
    intro s id ty raw e2 h2
    simp only at h2
    split at h2
    case _ err2 heq2 => cases h2; exact set_with_type_no_capture _ _ _ _ heq2
    · cases h2
  · cases h

theorem set_no_capture (hs : HostState) (id : Option String) (ty : Option EnumVal) (e : JSErr)
    (h : PackageInfo.set hs id ty = .error e) : e ≠ .captureError := by
  simp only [PackageInfo.set] at h
  split at h
  · exact detect_id_no_capture _ _ _ h
  split at h
  · exact detect_id_no_capture _ _ _ h
  split at h
  · cases h
  split at h
  · exact set_core_no_capture _ _ _ _ h
  split at h
  case _ err heq => cases h; exact parse_key_no_capture _ _ heq
  · split at h
    · exact set_core_no_capture _ _ _ _ h
    · exact set_with_type_no_capture _ _ _ _ h
  · exact set_core_no_capture _ _ _ _ h

theorem mapM_set_no_capture (hs : HostState) :
    ∀ (keys : List String) (e : JSErr),
      keys.mapM (fun k => PackageInfo.set hs (some k) none) = .error e →
      e ≠ .captureError := by
  intro keys
  induction keys with
  | nil => intro e h; cases h
  | cons k rest ih =>
    intro e h
    rw [← List.mapM'_eq_mapM] at h
    simp only [List.mapM'] at h
    cases hk : PackageInfo.set hs (some k) none with
    | error err =>
      rw [hk] at h
      simp only [bind, Except.bind] at h
      cases h
      exact set_no_capture _ _ _ _ hk
    | ok p =>
      rw [hk] at h
      simp only [bind, Except.bind] at h
      cases hr : rest.mapM' (fun k => PackageInfo.set hs (some k) none) with
      | error err2 =>
        rw [hr] at h
        simp only [bind, Except.bind] at h
        cases h
        rw [← List.mapM'_eq_mapM] at ih
        exact ih _ hr
      | ok ps =>
        rw [hr] at h
        simp only [bind, Except.bind, pure, Except.pure] at h
        cases h

theorem collect_all_no_capture (hs : HostState) (st : Option String)
    (f : Option (String → EnumVal → String → Bool)) (ign : Option IgnoreIds) (e : JSErr)
    (h : collect_all hs st f ign = .error e) : e ≠ .captureError := by
  simp only [collect_all] at h
  split at h
  case _ err heq =>
    cases h
    refine foreach_no_capture _ ?_ _ _ _ _ _ heq
    intro s id ty raw e2 h2
    simp only [collect_step] at h2
    split at h2
    · cases h2
    split at h2
    · split at h2
      · cases h2
      · cases h2
    · cases h2
  · exact mapM_set_no_capture _ _ _ h

theorem split_chars_ne_nil (p : Char → Bool) (l : List Char) : split_chars p l ≠ [] := by
  induction l with
  | nil => simp [split_chars]
  | cons c cs ih =>
    simp only [split_chars]
    split
    · simp
    · split
      · simp
      · simp

theorem split_chars_clean (p : Char → Bool) (l : List Char) (h : ∀ c ∈ l, p c = false) :
    split_chars p l = [l] := by
  induction l with
  | nil => rfl
  | cons c cs ih =>
    simp only [split_chars, h c (List.mem_cons_self c cs)]
    rw [ih (fun x hx => h x (List.mem_cons_of_mem c hx))]
    simp

theorem split_chars_append (p : Char → Bool) (l1 : List Char) (c : Char) (l2 : List Char)
    (h1 : ∀ x ∈ l1, p x = false) (hc : p c = true) :
    split_chars p (l1 ++ c :: l2) = l1 :: split_chars p l2 := by
  induction l1 with
  | nil => simp [split_chars, hc]
  | cons a as ih =>
    simp only [List.cons_append, split_chars, h1 a (List.mem_cons_self a as), List.append_eq]
    rw [ih (fun x hx => h1 x (List.mem_cons_of_mem a hx))]
    simp

theorem split_chars_two_le (p : Char → Bool) (l : List Char) (c : Char)
    (hc : c ∈ l) (hpc : p c = true) : 2 ≤ (split_chars p l).length := by
  induction l with
  | nil => cases hc
  | cons a as ih =>
    simp only [split_chars]
    by_cases hpa : p a = true
    · rw [if_pos hpa]
      have := split_chars_ne_nil p as
      cases hsp : split_chars p as with
      | nil => exact absurd hsp this
      | cons x xs => simp
    · rw [if_neg hpa]
      have hcas : c ∈ as := by
        rcases List.mem_cons.mp hc with h | h
        · subst h; exact absurd hpc hpa
        · exact h
      have h2 := ih hcas
      cases hsp : split_chars p as with
      | nil => exact absurd hsp (split_chars_ne_nil p as)
      | cons x xs =>
        rw [hsp] at h2
        simpa using h2

theorem str_toList_append (a b : String) : (a ++ b).toList = a.toList ++ b.toList :=
  String.data_append a b

theorem str_mk_toList (s : String) : String.mk s.toList = s := rfl

theorem collect_step_shape (f : Option (String → EnumVal → String → Bool))
    (keys : List String) (id : String) (ty : EnumVal) (raw : String)
    (s1 : List String) (cont : Bool)
    (h : collect_step f keys id ty raw = .ok (s1, cont)) :
    cont = true ∧ (s1 = keys ∨
      (s1 = keys ++ [ty.lower ++ String.mk [KEY_SEPARATOR] ++ id] ∧
       (ty.lower ++ String.mk [KEY_SEPARATOR] ++ id) ∉ keys)) := by
  simp only [collect_step] at h
  split at h
  case _ hcond =>
    cases h; exact ⟨rfl, Or.inl rfl⟩
  case _ hcond =>
    have hnot : (ty.lower ++ String.mk [KEY_SEPARATOR] ++ id) ∉ keys := by
      simpa using hcond
    split at h
    · split at h
      · cases h; exact ⟨rfl, Or.inl rfl⟩
      · cases h; exact ⟨rfl, Or.inr ⟨rfl, hnot⟩⟩
    · cases h; exact ⟨rfl, Or.inr ⟨rfl, hnot⟩⟩

theorem collect_step_none_eq (keys : List String) (id : String) (ty : EnumVal) (raw : String) :
    collect_step none keys id ty raw =
      (if keys.contains (ty.lower ++ String.mk [KEY_SEPARATOR] ++ id) = true
       then .ok (keys, true)
       else .ok (keys ++ [ty.lower ++ String.mk [KEY_SEPARATOR] ++ id], true)) := rfl

theorem collect_aux_sub (f : Option (String → EnumVal → String → Bool))
    (hs : HostState) (ign : Option IgnoreIds) :
    ∀ (l : List (String × String × String)) (keys0 keys : List String) (b : Bool),
      foreach_aux (collect_step f) hs ign keys0 l = .ok (keys, b) →
      ∀ k ∈ keys0, k ∈ keys := by
  intro l
  induction l with
  | nil =>
    intro keys0 keys b h
    cases h
    exact fun k hk => hk
  | cons m rest ih =>
    intro keys0 keys b h
    simp only [foreach_aux] at h
    split at h
    · exact ih _ _ _ h
    split at h
    · cases h
    · exact ih _ _ _ h
    case _ ty heq =>
      split at h
      · cases h
      case _ s1 cont heq2 =>
        obtain ⟨hcont, hs1⟩ := collect_step_shape _ _ _ _ _ _ _ heq2
        subst hcont
        simp only [if_pos rfl] at h
        intro k hk
        refine ih _ _ _ h k ?_
        rcases hs1 with h1 | ⟨h1, _⟩
        · rw [h1]; exact hk
        · rw [h1]; exact List.mem_append_left _ hk

theorem collect_aux_nodup (f : Option (String → EnumVal → String → Bool))
    (hs : HostState) (ign : Option IgnoreIds) :
    ∀ (l : List (String × String × String)) (keys0 keys : List String) (b : Bool),
      foreach_aux (collect_step f) hs ign keys0 l = .ok (keys, b) →
      keys0.Nodup → keys.Nodup := by
  intro l
  induction l with
  | nil =>
    intro keys0 keys b h hnd
    cases h
    exact hnd
  | cons m rest ih =>
    intro keys0 keys b h hnd
    simp only [foreach_aux] at h
    split at h
    · exact ih _ _ _ h hnd
    split at h
    · cases h
    · exact ih _ _ _ h hnd
    case _ ty heq =>
      split at h
      · cases h
      case _ s1 cont heq2 =>
        obtain ⟨hcont, hs1⟩ := collect_step_shape _ _ _ _ _ _ _ heq2
        subst hcont
        simp only [if_pos rfl] at h
        refine ih _ _ _ h ?_
        rcases hs1 with h1 | ⟨h1, hfresh⟩
        · rw [h1]; exact hnd
        · rw [h1]
          refine List.nodup_append.mpr ⟨hnd, List.nodup_singleton _, ?_⟩
          intro a ha hb
          rw [List.mem_singleton] at hb
          subst hb
          exact hfresh ha

theorem collect_aux_mem (hs : HostState) (ign : Option IgnoreIds) :
    ∀ (l : List (String × String × String)) (keys0 keys : List String) (b : Bool),
      foreach_aux (collect_step none) hs ign keys0 l = .ok (keys, b) →
      ∀ (t n raw : String) (ty : EnumVal), (t, n, raw) ∈ l →
        t.toList.isEmpty = false → n.toList.isEmpty = false →
        filter_match hs ign t n = .ok (some ty) →
        (ty.lower ++ String.mk [KEY_SEPARATOR] ++ n) ∈ keys := by
  intro l
  induction l with
  | nil =>
    intro keys0 keys b h t n raw ty hmem
    cases hmem
  | cons m rest ih =>
    intro keys0 keys b h t n raw ty hmem ht hn hf
    rcases List.mem_cons.mp hmem with hhead | htail
    · subst hhead
      simp only [foreach_aux] at h
      split at h
      case _ hguard =>
        rw [ht, hn] at hguard
        simp at hguard
      rw [hf] at h
      dsimp only at h
      split at h
      · cases h
      case _ s1 cont heq2 =>
        obtain ⟨hcont, hs1⟩ := collect_step_shape _ _ _ _ _ _ _ heq2
        subst hcont
        simp only [if_pos rfl] at h
        have hks : (ty.lower ++ String.mk [KEY_SEPARATOR] ++ n) ∈ s1 := by
          rcases hs1 with h1 | ⟨h1, _⟩
          · rw [h1]
            by_cases hcond :
                keys0.contains (ty.lower ++ String.mk [KEY_SEPARATOR] ++ n) = true
            · simpa using hcond
            · rw [collect_step_none_eq, if_neg hcond] at heq2
              have hfst : keys0 ++ [ty.lower ++ String.mk [KEY_SEPARATOR] ++ n] = s1 :=
                congrArg Prod.fst (Except.ok.inj heq2)
              rw [h1] at hfst
              have hlen := congrArg List.length hfst
              simp at hlen
          · rw [h1]
            exact List.mem_append_right _ (List.mem_singleton_self _)
        exact collect_aux_sub none hs ign rest s1 keys b h _ hks
    · simp only [foreach_aux] at h
      split at h
      · exact ih _ _ _ h t n raw ty htail ht hn hf
      split at h
      · cases h
      · exact ih _ _ _ h t n raw ty htail ht hn hf
      case _ ty2 heq =>
        split at h
        · cases h
        case _ s1 cont heq2 =>
          have hcont : cont = true := (collect_step_shape _ _ _ _ _ _ _ heq2).1
          subst hcont
          simp only [if_pos rfl] at h
          exact ih _ _ _ h t n raw ty htail ht hn hf

theorem collect_aux_origin (f : Option (String → EnumVal → String → Bool))
    (hs : HostState) (ign : Option IgnoreIds) :
    ∀ (l : List (String × String × String)) (keys0 keys : List String) (b : Bool),
      foreach_aux (collect_step f) hs ign keys0 l = .ok (keys, b) →
      ∀ k ∈ keys, k ∈ keys0 ∨ ∃ (t n raw : String) (ty : EnumVal),
        (t, n, raw) ∈ l ∧ filter_match hs ign t n = .ok (some ty) ∧
        k = ty.lower ++ String.mk [KEY_SEPARATOR] ++ n := by
  intro l
  induction l with
  | nil =>
    intro keys0 keys b h k hk
    cases h
    exact Or.inl hk
  | cons m rest ih =>
    intro keys0 keys b h k hk
    simp only [foreach_aux] at h
    split at h
    · rcases ih _ _ _ h k hk with h1 | ⟨t, n, raw, ty, hmem, hf, hkey⟩
      · exact Or.inl h1
      · exact Or.inr ⟨t, n, raw, ty, List.mem_cons_of_mem _ hmem, hf, hkey⟩
    split at h
    · cases h
    · rcases ih _ _ _ h k hk with h1 | ⟨t, n, raw, ty, hmem, hf, hkey⟩
      · exact Or.inl h1
      · exact Or.inr ⟨t, n, raw, ty, List.mem_cons_of_mem _ hmem, hf, hkey⟩
    case _ ty heq =>
      split at h
      · cases h
      case _ s1 cont heq2 =>
        obtain ⟨hcont, hs1⟩ := collect_step_shape _ _ _ _ _ _ _ heq2
        subst hcont
        simp only [if_pos rfl] at h
        rcases ih _ _ _ h k hk with h1 | ⟨t, n, raw, ty2, hmem, hf, hkey⟩
        · rcases hs1 with h2 | ⟨h2, _⟩
          · rw [h2] at h1; exact Or.inl h1
          · rw [h2] at h1
            rcases List.mem_append.mp h1 with h3 | h3
            · exact Or.inl h3
            · rw [List.mem_singleton] at h3
              exact Or.inr ⟨m.1, m.2.1, m.2.2, ty, List.mem_cons_self _ _, heq, h3⟩
        · exact Or.inr ⟨t, n, raw, ty2, List.mem_cons_of_mem _ hmem, hf, hkey⟩

theorem set_typed_key (hs : HostState) (w : String) (ptw : EnumVal) (n : String)
    (p : PackageInfo)
    (hwclean : ∀ x ∈ w.toList, (x == KEY_SEPARATOR) = false)
    (hwnem : w.toList ≠ [])
    (hget : PACKAGE_TYPES.get (.str w) .undef = .ok (.member ptw))
    (hhas : PACKAGE_TYPES.has (.member ptw) = true)
    (hok : PackageInfo.set hs (some (w ++ String.mk [KEY_SEPARATOR] ++ n)) none = .ok p) :
    (n = UNKNOWN_ID ∧ p = UNKNOWN_PINFO) ∨ (p = ⟨n, ptw⟩ ∧ ':' ∉ n.toList) := by
  have hkl : (w ++ String.mk [KEY_SEPARATOR] ++ n).toList =
      w.toList ++ KEY_SEPARATOR :: n.toList := by
    rw [str_toList_append, str_toList_append]
    simp
  have hkne : (w ++ String.mk [KEY_SEPARATOR] ++ n).toList.isEmpty = false := by
    rw [hkl]
    cases hw : w.toList with
    | nil => exact absurd hw hwnem
    | cons a as => simp
  have hkunk : ((w ++ String.mk [KEY_SEPARATOR] ++ n) == UNKNOWN_ID) = false := by
    apply beq_eq_false_iff_ne.mpr
    intro he
    have hmem : ':' ∈ UNKNOWN_ID.toList := by
      rw [← he, hkl]
      exact List.mem_append_right _ (List.mem_cons_self _ _)
    exact absurd hmem (by decide)
  have hval : is_valid_id (w ++ String.mk [KEY_SEPARATOR] ++ n) = false := by
    simp only [is_valid_id]
    have hall : ((w ++ String.mk [KEY_SEPARATOR] ++ n).toList.all
        (fun c => c.isAlphanum || c == '_' || c == '-')) = false := by
      rw [List.all_eq_false]
      refine ⟨':', ?_, by decide⟩
      rw [hkl]
      exact List.mem_append_right _ (List.mem_cons_self _ _)
    rw [hall, Bool.and_false]
  simp only [PackageInfo.set] at hok
  split at hok
  case _ hcond => rw [hkne] at hcond; cases hcond
  split at hok
  case _ hcond => rw [hkunk] at hcond; cases hcond
  by_cases hc : ':' ∈ n.toList
  · have hcs : (KEY_SEPARATOR ∈ n.toList) := hc
    have hsplit : js_split (w ++ String.mk [KEY_SEPARATOR] ++ n) KEY_SEPARATOR =
        String.mk w.toList ::
          (split_chars (fun c => c == KEY_SEPARATOR) n.toList).map String.mk := by
      simp only [js_split, hkl]
      rw [split_chars_append _ _ _ _ hwclean (by decide)]
      simp
    have hlen2 :
        2 ≤ ((split_chars (fun c => c == KEY_SEPARATOR) n.toList).map String.mk).length := by
      rw [List.length_map]
      exact split_chars_two_le _ _ ':' hc (by decide)
    have hparse : parse_key (w ++ String.mk [KEY_SEPARATOR] ++ n) = .ok (none, none) := by
      simp only [parse_key, hsplit]
      cases hmap : (split_chars (fun c => c == KEY_SEPARATOR) n.toList).map String.mk with
      | nil => rfl
      | cons a l2 =>
        cases hl2 : l2 with
        | nil =>
          rw [hmap, hl2] at hlen2
          simp at hlen2
        | cons b tail => rfl
    rw [hparse] at hok
    dsimp only at hok
    simp [set_core, hval] at hok
  · have hclean : ∀ x ∈ n.toList, (x == KEY_SEPARATOR) = false := by
      intro x hx
      apply beq_eq_false_iff_ne.mpr
      intro he
      rw [he] at hx
      exact hc hx
    have hsplit : js_split (w ++ String.mk [KEY_SEPARATOR] ++ n) KEY_SEPARATOR =
        [String.mk w.toList, String.mk n.toList] := by
      simp only [js_split, hkl]
      rw [split_chars_append _ _ _ _ hwclean (by decide), split_chars_clean _ _ hclean]
      simp
    have hparse : parse_key (w ++ String.mk [KEY_SEPARATOR] ++ n) =
        .ok (some n, some ptw) := by
      simp only [parse_key, hsplit]
      rw [str_mk_toList, str_mk_toList, hget]
    rw [hparse] at hok
    dsimp only at hok
    split at hok
    case _ hcond =>
      simp [set_core, hval] at hok
    case _ hcond =>
      simp only [set_with_type] at hok
      split at hok
      case _ hcond2 =>
        refine Or.inl ⟨by simpa using hcond2, ?_⟩
        cases hok
        rfl
      case _ hcond2 =>
        refine Or.inr ?_
        simp only [set_core] at hok
        split at hok
        · cases hok
        split at hok
        case _ hcond3 => rw [hhas] at hcond3; simp at hcond3
        case _ =>
          cases hok
          exact ⟨rfl, hc⟩

theorem filter_match_some (hs : HostState) (ign : Option IgnoreIds) (t n : String)
    (ty : EnumVal) (h : filter_match hs ign t n = .ok (some ty)) :
    (t = "worlds" ∧ ty = PT_WORLD) ∨ (t = "systems" ∧ ty = PT_SYSTEM) ∨
    (t = "modules" ∧ ty = PT_MODULE) := by
  simp only [filter_match] at h
  split at h
  case _ hcond =>
    refine Or.inl ⟨by simpa using hcond, ?_⟩
    split at h
    · split at h
      · exact Option.noConfusion (Except.ok.inj h)
      · exact (Option.some.inj (Except.ok.inj h)).symm
    · exact (Option.some.inj (Except.ok.inj h)).symm
  split at h
  case _ hcond =>
    refine Or.inr (Or.inl ⟨by simpa using hcond, ?_⟩)
    split at h
    · split at h
      · exact Option.noConfusion (Except.ok.inj h)
      · exact (Option.some.inj (Except.ok.inj h)).symm
    · exact (Option.some.inj (Except.ok.inj h)).symm
  split at h
  case _ hcond =>
    refine Or.inr (Or.inr ⟨by simpa using hcond, ?_⟩)
    split at h
    · exact Option.noConfusion (Except.ok.inj h)
    split at h
    · exact Option.noConfusion (Except.ok.inj h)
    · exact (Option.some.inj (Except.ok.inj h)).symm
  · exact Except.noConfusion h

theorem filter_match_alpha (hs : HostState) (ign : Option IgnoreIds)
    (hreg : hs.has_modules = false ∨ hs.module_ids.contains "alpha" = true)
    (hign : ignores ign "alpha" = false) :
    filter_match hs ign "modules" "alpha" = .ok (some PT_MODULE) := by
  simp only [filter_match]
  rw [if_neg (by decide), if_neg (by decide), if_pos (by decide)]
  rcases hreg with h1 | h1
  · rw [h1]
    simp [hign]
  · rw [h1]
    simp [hign]

theorem set_key_to_alpha (hs : HostState) (ty : EnumVal) (n : String)
    (hty : ty = PT_WORLD ∨ ty = PT_SYSTEM ∨ ty = PT_MODULE)
    (hok : PackageInfo.set hs (some (ty.lower ++ String.mk [KEY_SEPARATOR] ++ n)) none =
      .ok ⟨"alpha", PT_MODULE⟩) :
    ty.lower ++ String.mk [KEY_SEPARATOR] ++ n = "module:alpha" := by
  rcases hty with h | h | h
  · subst h
    rw [show PT_WORLD.lower = "world" from rfl] at hok ⊢
    have hres := set_typed_key hs "world" PT_WORLD n _ (by decide) (by decide) rfl
      (by decide) hok
    rcases hres with ⟨_, hp⟩ | ⟨hp, _⟩
    · exact absurd hp (by decide)
    · have htyp := congrArg PackageInfo.type hp
      dsimp only at htyp
      exact absurd htyp (by decide)
  · subst h
    rw [show PT_SYSTEM.lower = "system" from rfl] at hok ⊢
    have hres := set_typed_key hs "system" PT_SYSTEM n _ (by decide) (by decide) rfl
      (by decide) hok
    rcases hres with ⟨_, hp⟩ | ⟨hp, _⟩
    · exact absurd hp (by decide)
    · have htyp := congrArg PackageInfo.type hp
      dsimp only at htyp
      exact absurd htyp (by decide)
  · subst h
    rw [show PT_MODULE.lower = "module" from rfl] at hok ⊢
    have hres := set_typed_key hs "module" PT_MODULE n _ (by decide) (by decide) rfl
      (by decide) hok
    rcases hres with ⟨_, hp⟩ | ⟨hp, _⟩
    · exact absurd hp (by decide)
    · have hn := congrArg PackageInfo.id hp
      simp only at hn
      rw [← hn]
      decide

theorem mapM_count (hs : HostState) (q : PackageInfo → Bool) :
    ∀ (keys : List String) (r : List PackageInfo),
      keys.mapM (fun k => PackageInfo.set hs (some k) none) = .ok r →
      r.countP q = keys.countP
        (fun k => match PackageInfo.set hs (some k) none with
                  | .ok y => q y
                  | .error _ => false) := by
  intro keys
  induction keys with
  | nil =>
    intro r h
    cases h
    rfl
  | cons k rest ih =>
    intro r h
    rw [← List.mapM'_eq_mapM] at h
    simp only [List.mapM'] at h
    cases hk : PackageInfo.set hs (some k) none with
    | error e =>
      rw [hk] at h
      simp only [bind, Except.bind] at h
      cases h
    | ok y =>
      rw [hk] at h
      simp only [bind, Except.bind] at h
      cases hr : List.mapM' (fun k => PackageInfo.set hs (some k) none) rest with
      | error e2 =>
        rw [hr] at h
        cases h
      | ok ys =>
        rw [hr] at h
        simp only [pure, Except.pure] at h
        cases h
        rw [List.mapM'_eq_mapM] at hr
        have hys := ih ys hr
        simp [List.countP_cons, hys, hk]

/-!
## The claims
-/

/-- C1: for every host-registry state, constructing a package identity from the
composite key `"module:my-module"` (id given, type omitted) succeeds with id
`"my-module"` and type `MODULE`, and equals — per the `equals` method — the
identity constructed explicitly as `PackageInfo("my-module", PACKAGE_TYPES.MODULE)`. -/
theorem spec_c1 (h : HostState) :
    PackageInfo.set h (some "module:my-module") none = .ok ⟨"my-module", PT_MODULE⟩ ∧
    PackageInfo.set h (some "my-module") (some PT_MODULE) = .ok ⟨"my-module", PT_MODULE⟩ ∧
    PackageInfo.equals ⟨"my-module", PT_MODULE⟩ ⟨"my-module", PT_MODULE⟩ = true :=
  ⟨rfl, rfl, rfl⟩

theorem spec_c1_witness :
    PackageInfo.set ⟨false, [], [], none, none, none⟩ (some "module:my-module") none =
      .ok ⟨"my-module", PT_MODULE⟩ ∧
    PackageInfo.set ⟨false, [], [], none, none, none⟩ (some "my-module") (some PT_MODULE) =
      .ok ⟨"my-module", PT_MODULE⟩ ∧
    PackageInfo.equals ⟨"my-module", PT_MODULE⟩ ⟨"my-module", PT_MODULE⟩ = true :=
  spec_c1 ⟨false, [], [], none, none, none⟩

/-- C2 counterexample: the claim as stated is false on the code.  Supplying
`undefined` as the default does not return `undefined`: `Enum.get` cannot
distinguish it from an omitted default (`dflt === undefined`) and throws the
not-found error.  Moreover, for a value-less (array-built) enumeration such as
`PACKAGE_TYPES` a miss with a genuine default reaches `this.reverse.get(...)`
on `undefined` and throws a `TypeError` instead of returning the default. -/
theorem spec_c2_counterexample :
    VERBOSITY.get (.str "nonexistent") .undef ≠ .ok .undef ∧
    VERBOSITY.get (.str "nonexistent") .undef =
      .error (.notFound "PackageType" (.str "nonexistent")) ∧
    PACKAGE_TYPES.get (.str "nonexistent") (.int 7) ≠ .ok (.int 7) ∧
    PACKAGE_TYPES.get (.str "nonexistent") (.int 7) = .error .typeError := by
  refine ⟨by decide, rfl, by decide, rfl⟩

/-- C2 (amended): for every enumeration built with explicit values (reverse map
present) and every lookup argument matching no member, no member name after
uppercasing, no underlying value and no integer-parsed value: lookup with a
supplied default other than `undefined` returns that default, and lookup with
no default — equivalently, with `undefined` supplied, which the code cannot
distinguish from omission — fails with the not-found error naming the
enumeration and the attempted key/value.  (For value-less enumerations such a
miss instead throws a `TypeError` before the default is consulted, as the
counterexample shows.) -/
theorem spec_c2_amended (E : EnumCls) (r : List (Int × EnumVal)) (k d : JSVal)
    (hrev : E.reverse = some r)
    (hmem : ∀ m, k = .member m → E.list.contains m = false)
    (hname : ∀ s, k = .str s → E.lookup_name (js_toUpper s) = none)
    (hval : ∀ n, k = .int n → reverse_get r n = none)
    (hparse : ∀ s n, k = .str s → js_parseInt s = some n → reverse_get r n = none) :
    (d ≠ .undef → E.get k d = .ok d) ∧
    E.get k .undef = .error (.notFound E.name k) := by
  have key : ∀ d', E.get k d' =
      (if d' = .undef then .error (.notFound E.name k) else .ok d') := by
    intro d'
    cases k with
    | undef => simp [EnumCls.get, hrev]
    | member m =>
      have hc := hmem m rfl
      have hm2 : m ∉ E.list := by simpa using hc
      simp [EnumCls.get, hrev, hm2]
    | str s =>
      have hn := hname s rfl
      simp only [EnumCls.get, hrev, hn]
      cases hp : js_parseInt s with
      | none => simp [hp]
      | some nn =>
        have hr := hparse s nn rfl hp
        simp [hp, hr]
    | int nn =>
      have hr := hval nn rfl
      simp [EnumCls.get, hrev, hr]
  constructor
  · intro hd
    rw [key d, if_neg hd]
  · rw [key .undef, if_pos rfl]

theorem spec_c2_witness :
    VERBOSITY.get (.str "nonexistent") (.int 7) = .ok (.int 7) ∧
    VERBOSITY.get (.str "nonexistent") .undef =
      .error (.notFound "PackageType" (.str "nonexistent")) := by
  have h := spec_c2_amended VERBOSITY
      [(0, ⟨"ZERO", some 0⟩), (100, ⟨"TRACE", some 100⟩), (200, ⟨"DEBUG", some 200⟩),
       (300, ⟨"INFO", some 300⟩), (400, ⟨"WARNING", some 400⟩), (500, ⟨"ERROR", some 500⟩),
       (9007199254740990, ⟨"CRITICAL", some 9007199254740990⟩),
       (9007199254740991, ⟨"ALWAYS", some 9007199254740991⟩)]
      (.str "nonexistent") (.int 7) (by decide)
      (fun m hm => JSVal.noConfusion hm)
      (fun s hs => by cases hs; decide)
      (fun nn hn => JSVal.noConfusion hn)
      (fun s nn hs hp => by
        cases hs
        rw [show js_parseInt "nonexistent" = none from rfl] at hp
        cases hp)
  exact ⟨h.1 (by decide), h.2⟩

/-- C3: when trace text is explicitly supplied to the collect-all enumeration —
even as the empty string — no capture error is raised: the enumeration
completes, and on the empty trace `collect_all` returns the empty sequence.
(In this revision the capture error cannot arise once any trace text is
supplied.) -/
theorem spec_c3 :
    (∀ (hs : HostState) (f : Option (String → EnumVal → String → Bool))
        (ign : Option IgnoreIds), collect_all hs (some "") f ign = .ok []) ∧
    (∀ (hs : HostState) (s : String) (f : Option (String → EnumVal → String → Bool))
        (ign : Option IgnoreIds) (e : JSErr),
        collect_all hs (some s) f ign = .error e → e ≠ .captureError) := by
  constructor
  · intro hs f ign; rfl
  · intro hs s f ign e h
    exact collect_all_no_capture _ _ _ _ _ h

theorem spec_c3_witness :
    collect_all ⟨false, [], [], none, none, none⟩ (some "") none none = .ok [] ∧
    JSErr.invalidScriptType "Modules" ≠ JSErr.captureError ∧
    collect_all ⟨false, [], [], none, none, none⟩ (some "/Modules/alpha/x.js") none none =
      .error (.invalidScriptType "Modules") := by
  refine ⟨spec_c3.1 ⟨false, [], [], none, none, none⟩ none none,
    spec_c3.2 ⟨false, [], [], none, none, none⟩ "/Modules/alpha/x.js" none none
      (.invalidScriptType "Modules") (by decide), by decide⟩

/-- C4: for every enumeration and every member of it, looking the member up
(with any default) returns the member itself — the pass-through identity law
of the `instanceof` fast path. -/
theorem spec_c4 (E : EnumCls) (m : EnumVal) (d : JSVal) (hm : m ∈ E.list) :
    E.get (.member m) d = .ok (.member m) := by
  have hc : E.list.contains m = true := by simpa using hm
  simp only [EnumCls.get, hc, if_true]

theorem spec_c4_witness :
    PACKAGE_TYPES.get (.member PT_MODULE) .undef = .ok (.member PT_MODULE) :=
  spec_c4 PACKAGE_TYPES PT_MODULE .undef (by decide)

/-- C5: after construction, and after every single-member insertion with
sorting enabled, the member list is sorted ascending by underlying value with
an absent value treated as 0 (adjacent-pair comparisons); and an enumeration
built from a list of names only keeps its members exactly in insertion order
(ties — here all sort keys 0 — keep insertion order, by sort stability). -/
theorem spec_c5 :
    (∀ (nm : String) (coll : EnumCollection) (freeze : Bool) (E : EnumCls),
        Enum nm coll freeze = .ok E → List.Chain' value_le E.list) ∧
    (∀ (E : EnumCls) (n : String) (v : Option Int) (m : EnumVal) (E1 : EnumCls),
        EnumValue E n v true = .ok (m, E1) → List.Chain' value_le E1.list) ∧
    (∀ (nm : String) (names : List String) (freeze : Bool) (E : EnumCls),
        Enum nm (.arr names) freeze = .ok E →
        E.list = names.map (fun n => (⟨n, none⟩ : EnumVal))) := by
  refine ⟨?_, ?_, ?_⟩
  · intro nm coll freeze E h
    simp only [Enum] at h
    split at h
    · cases h
    case _ E2 heq =>
      have hE : E.list = sort_list_by_value E2.list := by
        cases freeze <;> cases h <;> rfl
      rw [hE]
      exact (sorted_sort_list E2.list).chain'
  · intro E n v m E1 h
    simp only [EnumValue] at h
    split at h
    · cases h
    split at h
    · cases h
    split at h
    · cases h
    split at h
    · cases h
    case _ E2 heq =>
      cases h
      exact (sorted_sort_list _).chain'
  · intro nm names freeze E h
    simp only [Enum] at h
    split at h
    · cases h
    case _ E2 heq =>
      have hl : E2.list = names.map (fun n => (⟨n, none⟩ : EnumVal)) := by
        have := enum_add_all_arr names _ _ heq
        simpa using this
      have hid : sort_list_by_value E2.list = E2.list := by
        apply sort_id_of_novalue
        intro m hm
        rw [hl] at hm
        obtain ⟨nn, _, hnn⟩ := List.mem_map.mp hm
        rw [← hnn]
      have hE : E.list = sort_list_by_value E2.list := by
        cases freeze <;> cases h <;> rfl
      rw [hE, hid, hl]

theorem spec_c5_witness :
    List.Chain' value_le VERBOSITY.list ∧
    PACKAGE_TYPES.list =
      [⟨"UNKNOWN", none⟩, ⟨"MODULE", none⟩, ⟨"SYSTEM", none⟩, ⟨"WORLD", none⟩] := by
  constructor
  · exact spec_c5.1 "PackageType"
      (.dict [("ZERO", 0), ("TRACE", 100), ("DEBUG", 200), ("INFO", 300),
              ("WARNING", 400), ("ERROR", 500),
              ("CRITICAL", MAX_SAFE_INTEGER - 1), ("ALWAYS", MAX_SAFE_INTEGER)]) true
      VERBOSITY (by decide)
  · exact spec_c5.2.2 "PackageType" ["UNKNOWN", "MODULE", "SYSTEM", "WORLD"] true
      PACKAGE_TYPES (by decide)

/-- C6: for every supplied stack trace one of whose lines matches
`.../modules/alpha/...`, with `alpha` neither ignored nor unknown to a live
module registry, a successful `collect_all` contains exactly one entry with
identifier `alpha` and classification `MODULE` — in particular a trace
containing both `.../modules/alpha/x.js` and `.../modules/alpha/y.js` lines
yields a single deduplicated `alpha` entry. -/
theorem spec_c6 (h : HostState) (ign : Option IgnoreIds) (trace raw : String)
    (res : List PackageInfo)
    (hline : ("modules", "alpha", raw) ∈ stack_matches trace)
    (hreg : h.has_modules = false ∨ h.module_ids.contains "alpha" = true)
    (hign : ignores ign "alpha" = false)
    (hrun : collect_all h (some trace) none ign = .ok res) :
    (res.filter (fun p => p.id == "alpha" && p.type == PT_MODULE)).length = 1 := by
  by_cases hemp : trace.toList.isEmpty = true
  · have htl : trace.toList = [] := by simpa using hemp
    simp only [stack_matches, js_lines, htl] at hline
    simp [split_chars, line_match] at hline
  · simp only [collect_all, foreach_package_in_stack_trace] at hrun
    rw [if_neg hemp] at hrun
    cases hfa : foreach_aux (collect_step none) h ign [] (stack_matches trace) with
    | error e =>
      rw [hfa] at hrun
      cases hrun
    | ok pr =>
      rw [hfa] at hrun
      obtain ⟨keys, b⟩ := pr
      have hnodup : keys.Nodup :=
        collect_aux_nodup none h ign _ _ _ _ hfa List.nodup_nil
      have hmemk : (PT_MODULE.lower ++ String.mk [KEY_SEPARATOR] ++ "alpha") ∈ keys :=
        collect_aux_mem h ign _ _ _ _ hfa "modules" "alpha" raw PT_MODULE hline
          (by decide) (by decide) (filter_match_alpha h ign hreg hign)
      have hcount := mapM_count h (fun p => p.id == "alpha" && p.type == PT_MODULE) keys res hrun
      have hcongr : ∀ k ∈ keys,
          (match PackageInfo.set h (some k) none with
           | .ok y => y.id == "alpha" && y.type == PT_MODULE
           | .error _ => false) = true ↔ (k == "module:alpha") = true := by
        intro k hk
        rcases collect_aux_origin none h ign _ _ _ _ hfa k hk with
          hk0 | ⟨t, n, raw2, ty2, _, hfil, hkey⟩
        · cases hk0
        have hty : ty2 = PT_WORLD ∨ ty2 = PT_SYSTEM ∨ ty2 = PT_MODULE := by
          rcases filter_match_some h ign t n ty2 hfil with ⟨_, h2⟩ | ⟨_, h2⟩ | ⟨_, h2⟩
          · exact Or.inl h2
          · exact Or.inr (Or.inl h2)
          · exact Or.inr (Or.inr h2)
        cases hbuild : PackageInfo.set h (some k) none with
        | error e =>
          simp only
          constructor
          · intro hfalse
            cases hfalse
          · intro halpha
            have hka : k = "module:alpha" := by simpa using halpha
            rw [hka] at hbuild
            rw [show PackageInfo.set h (some "module:alpha") none =
              .ok ⟨"alpha", PT_MODULE⟩ from rfl] at hbuild
            cases hbuild
        | ok y =>
          simp only
          constructor
          · intro hpy
            have hyeq : y = ⟨"alpha", PT_MODULE⟩ := by
              obtain ⟨hid, hty2⟩ := Bool.and_eq_true_iff.mp hpy
              cases y
              simp only at hid hty2
              simp only [beq_iff_eq] at hid hty2
              rw [hid, hty2]
            rw [hkey] at hbuild
            rw [hyeq] at hbuild
            have := set_key_to_alpha h ty2 n hty hbuild
            rw [hkey, this]
            simp
          · intro halpha
            have hka : k = "module:alpha" := by simpa using halpha
            rw [hka] at hbuild
            rw [show PackageInfo.set h (some "module:alpha") none =
              .ok ⟨"alpha", PT_MODULE⟩ from rfl] at hbuild
            have hy : y = ⟨"alpha", PT_MODULE⟩ := (Except.ok.inj hbuild).symm
            rw [hy]
            decide
      have hc2 : keys.countP
          (fun k => match PackageInfo.set h (some k) none with
           | .ok y => y.id == "alpha" && y.type == PT_MODULE
           | .error _ => false) = keys.countP (fun k => k == "module:alpha") :=
        List.countP_congr (fun k hk => hcongr k hk)
      have hc3 : keys.countP (fun k => k == "module:alpha") = 1 := by
        have := List.count_eq_one_of_mem hnodup
          (show "module:alpha" ∈ keys from by
            have := hmemk
            simpa using this)
        simpa [List.count] using this
      rw [← List.countP_eq_length_filter, hcount, hc2, hc3]

theorem spec_c6_witness :
    (([⟨"alpha", PT_MODULE⟩] : List PackageInfo).filter
      (fun p => p.id == "alpha" && p.type == PT_MODULE)).length = 1 :=
  spec_c6 ⟨false, [], [], none, none, none⟩ none
    ("at f (/data/modules/alpha/x.js:1:1)" ++ "\n" ++ "at g (/data/modules/alpha/y.js:2:2)")
    "at f (/data/modules/alpha/x.js:1:1)" [⟨"alpha", PT_MODULE⟩]
    (by decide) (Or.inl rfl) rfl (by decide)

/-- C7: `compatible_with_core` is `true` whenever the version range is
`(null, null, null)` — regardless of the host version — and, more generally,
whenever the range, the host version, or the host major version is
unavailable (fail-open on missing metadata). -/
theorem spec_c7 (inv : String → String → Bool)
    (versions : Option (Option String × Option String × Option String))
    (fvtt : Option String)
    (hopen : versions = some (none, none, none) ∨ versions = none ∨ fvtt = none ∨
      (∃ s, fvtt = some s ∧ ((js_split s '.').headD "").toList.isEmpty = true)) :
    compatible_with_core inv versions fvtt = true := by
  rcases hopen with h1 | h1 | h1 | ⟨s, hs, hmaj⟩
  · subst h1
    cases fvtt with
    | none => rfl
    | some fv =>
      simp only [compatible_with_core]
      split <;> rfl
  · subst h1; rfl
  · subst h1
    cases versions with
    | none => rfl
    | some q => rcases q with ⟨mn, vf, mx⟩; rfl
  · subst hs
    cases versions with
    | none => rfl
    | some q =>
      rcases q with ⟨mn, vf, mx⟩
      simp only [compatible_with_core, hmaj]
      simp [hmaj]

theorem spec_c7_witness :
    compatible_with_core (fun _ _ => false) (some (none, none, none)) (some "13.345") = true :=
  spec_c7 (fun _ _ => false) (some (none, none, none)) (some "13.345") (Or.inl rfl)

/-- C8: parsing the manifest version string `"10.291.2.0"` together with a
40-hexadecimal-character revision hash yields `known = true`, major 10,
minor 291, patch 2, suffix 0, empty free-text metadata, and a shortened
revision equal to the first 7 characters of the hash (length exactly 7). -/
theorem spec_c8 (g : String) (hlen : g.length = 40)
    (hhex : g.toList.all (fun c => c.isDigit || ('a' ≤ c && c ≤ 'f')) = true) :
    ∃ r, _parse_manifest_version (some "10.291.2.0") (some g) = .ok r ∧
      r.known = true ∧ r.major = 10 ∧ r.minor = 291 ∧ r.patch = 2 ∧ r.suffix = 0 ∧
      r.meta = "" ∧ r.git_short = String.mk (g.toList.take 7) ∧ r.git_short.length = 7 := by
  have hge : g.length ≥ 40 := by omega
  have hshape : _parse_manifest_version (some "10.291.2.0") (some g) =
      .ok { known := true, full := "10.291.2.0", major := 10, minor := 291, patch := 2,
            suffix := 0, meta := "", git := g,
            git_short := String.mk (g.toList.take 7),
            full_git := "10.291.2.0" ++ " (" ++ String.mk (g.toList.take 7) ++ ")" } := by
    unfold _parse_manifest_version
    dsimp only
    simp only [Option.getD_some, Option.isSome_some]
    rw [show parse_version_regex "10.291.2.0" = some (10, 291, 2, 0, "") from rfl]
    dsimp only
    rw [if_pos hge]
  refine ⟨_, hshape, rfl, rfl, rfl, rfl, rfl, rfl, rfl, ?_⟩
  show (List.take 7 g.toList).length = 7
  have hl : g.toList.length = 40 := hlen
  rw [List.length_take, hl]
  decide

theorem spec_c8_witness :
    ∃ r, _parse_manifest_version (some "10.291.2.0")
        (some "abcdef0123456789abcdef0123456789abcdef01") = .ok r ∧
      r.known = true ∧ r.major = 10 ∧ r.minor = 291 ∧ r.patch = 2 ∧ r.suffix = 0 ∧
      r.meta = "" ∧
      r.git_short = String.mk ("abcdef0123456789abcdef0123456789abcdef01".toList.take 7) ∧
      r.git_short.length = 7 :=
  spec_c8 "abcdef0123456789abcdef0123456789abcdef01" (by decide) (by decide)

/-- C9: for every parsed version state, `version_at_least` with major, minor
and patch exactly equal to the current components returns `true` exactly when
the requested suffix equals the current suffix — equality, not
greater-or-equal, in the suffix position, so a strictly lower requested
suffix yields `false`. -/
theorem spec_c9 (V : VersionInfo) (s : Nat) :
    version_at_least V V.major V.minor V.patch s = true ↔ s = V.suffix := by
  simp only [version_at_least, beq_self_eq_true, if_true, beq_iff_eq]
  exact eq_comm

theorem spec_c9_witness :
    version_at_least ⟨true, "10.291.2.0", 10, 291, 2, 0, "", "g", "g", "fg"⟩ 10 291 2 0 = true ↔
      (0 : Nat) = 0 :=
  spec_c9 ⟨true, "10.291.2.0", 10, 291, 2, 0, "", "g", "g", "fg"⟩ 0

/-- C10: while no verbosity has been configured (current verbosity still
null), `Log.verbosity` reads as `VERBOSITY.WARNING` (value 400) and
`Log.enabled v` returns `true` exactly when the numeric value of `v` is at
least 400 — e.g. `enabled ERROR` is `true` and `enabled INFO` is `false`. -/
theorem spec_c10 :
    VERBOSITY.lookup_name "WARNING" = some V_WARNING ∧
    Log_verbosity .null = .member V_WARNING ∧
    Log_verbosity_value .null = 400 ∧
    (∀ v, Log_enabled .null v = true ↔ verbosity_to_value v ≥ 400) ∧
    Log_enabled .null (.member V_ERROR) = true ∧
    Log_enabled .null (.member V_INFO) = false := by
  refine ⟨by decide, rfl, rfl, ?_, rfl, rfl⟩
  intro v
  simp [Log_enabled, Log_verbosity_value, Log_verbosity, verbosity_to_value, V_WARNING]

end SharedLib
